import Mathlib

/-!
Verification development for the file-renaming tool (src/lib.rs).

The tool reads a tab-delimited data file, computes a renaming plan that maps
file names prefixed by a row's inventory number (field 8) to
lot-number-plus-suffix names, and applies the plan to a directory.

Modelling conventions:
* Rust strings are modelled as lists of characters (abbrev Str), so that
  splitting, prefix tests and equality are structurally recursive and
  kernel-computable.
* A csv::StringRecord is a list of fields (abbrev Row).
* The Rust HashMap is modelled as an association list with unique keys
  (abbrev Plan) whose entry order is irrelevant; lookup is planFind.
* Rust panics (expect, out-of-bounds indexing) abort the run before any
  rename happens; they are modelled as Except errors.
* Filesystem state is a list of entry names; fs::rename on Unix replaces an
  existing target, which renameFile models by dropping the old entry, any
  entry already carrying the new name, and adding the new name.
-/

namespace Rename

/-- A text value (a Rust String or str slice), as its list of characters. -/
abbrev Str := List Char

/-- A parsed data row (csv::StringRecord): an ordered list of text fields. -/
abbrev Row := List Str

/-- The rename plan, a HashMap from old file name to new file name, as an
association list with unique keys; entry order carries no meaning. -/
abbrev Plan := List (Str × Str)

/-- Splitting a string at every occurrence of a separator character, the
semantics of the Rust str::split used in extract_file_suffix (separator a
period) and of tab-splitting a data line.  Splitting the empty string gives
one empty segment, and n separators give n+1 segments. -/
def splitOnChar (sep : Char) : Str → List Str
  | [] => [[]]
  | c :: rest =>
    match splitOnChar sep rest with
    | [] => [[]]
    | s :: ss => if c = sep then [] :: s :: ss else (c :: s) :: ss

/-- extract_file_suffix from src/lib.rs: split the file name on periods and
take the segment at zero-indexed position 1.  The Rust code indexes the
vector directly and panics when there is no such segment; the panic is
modelled by none. -/
def extract_file_suffix (file_name : Str) : Option Str :=
  (splitOnChar '.' file_name)[1]?

/-- compose_new_name from src/lib.rs: the Rust format string producing
lot_number, an underscore, the suffix, and the literal extension .jpg. -/
def compose_new_name (lot_number suffix : Str) : Str :=
  lot_number ++ ('_' :: suffix) ++ ".jpg".toList

/-- filter_object_files from src/lib.rs: keep the file names that start with
the given inventory number (Rust str::starts_with, an exact
character-by-character prefix test). -/
def filter_object_files (files : List Str) (object_id : Str) : List Str :=
  files.filter (fun element => object_id.isPrefixOf element)

/-- The ways planning can abort: row.get(0) / row.get(8) panicking with the
malformed-row message (the argument records which field was missing), and
the out-of-bounds panic in extract_file_suffix. -/
inductive PlanError where
  | malformedRow (field : Nat)
  | suffixExtraction
deriving DecidableEq

/-- HashMap::insert: record the new value for the key, overwriting any prior
entry for the same key (last write wins, keys stay unique). -/
def planInsert (p : Plan) (k v : Str) : Plan :=
  (k, v) :: p.filter (fun e => e.1 ≠ k)

/-- HashMap lookup: the value stored for a key, if any. -/
def planFind (p : Plan) (k : Str) : Option Str :=
  match p with
  | [] => none
  | e :: rest => if e.1 = k then some e.2 else planFind rest k

/-- The inner loop of determine_renamings over one row's object files:
extract each file's suffix (aborting on failure), compose its new name, and
insert the pair into the plan. -/
def processFiles (lot_number : Str) (object_files : List Str) (renamings : Plan) :
    Except PlanError Plan :=
  match object_files with
  | [] => .ok renamings
  | object_file :: rest =>
    match extract_file_suffix object_file with
    | none => .error .suffixExtraction
    | some suffix =>
        processFiles lot_number rest
          (planInsert renamings object_file (compose_new_name lot_number suffix))

/-- The body of determine_renamings for one row: read field 0 (lot number)
and field 8 (inventory number), aborting with the malformed-row panic when a
field is absent, then process the row's object files. -/
def processRow (renamings : Plan) (row : Row) (files : List Str) :
    Except PlanError Plan :=
  match row[0]? with
  | none => .error (.malformedRow 0)
  | some lot_number =>
    match row[8]? with
    | none => .error (.malformedRow 8)
    | some inventory_number =>
      processFiles lot_number (filter_object_files files inventory_number) renamings

/-- The row loop of determine_renamings, threading the accumulated plan. -/
def determineRenamingsAux (csv_rows : List Row) (files : List Str)
    (renamings : Plan) : Except PlanError Plan :=
  match csv_rows with
  | [] => .ok renamings
  | row :: rest =>
    match processRow renamings row files with
    | .error e => .error e
    | .ok p => determineRenamingsAux rest files p

/-- determine_renamings from src/lib.rs: starting from the empty map, process
every row in order. -/
def determine_renamings (csv_rows : List Row) (files : List Str) :
    Except PlanError Plan :=
  determineRenamingsAux csv_rows files []

/-- The failure of the record reader (csv crate, flexible disabled): a record
whose field count differs from the first record's. -/
inductive ReadError where
  | unequalLengths
deriving DecidableEq

/-- read_csv from src/lib.rs, on a data file given as its list of lines
(restricted to lines without quoting, which no claim exercises).  It models
csv::ReaderBuilder::new().delimiter(tab).from_path(..): fields are separated
by tabs, and — because the builder leaves has_headers at its default of
true — the first record of the file is consumed as a header and is absent
from the records the reader yields; with flexible left at its default of
false, a later record whose field count differs from the header's is an
UnequalLengths error, which the loop in read_csv propagates. -/
def read_csv (lines : List Str) : Except ReadError (List Row) :=
  match lines.map (fun line => splitOnChar '\t' line) with
  | [] => .ok []
  | header :: rest =>
    if rest.all (fun r => r.length = header.length) then .ok rest
    else .error .unequalLengths

/-- One fs::rename inside rename_all_files: fails when the source entry does
not exist; otherwise (Unix semantics) the source entry is removed, any
existing entry with the target name is replaced, and the target name is
present afterwards. -/
def renameFile (dir : List Str) (old_name new_name : Str) : Option (List Str) :=
  if old_name ∈ dir then
    some (new_name :: dir.filter (fun x => x ≠ old_name ∧ x ≠ new_name))
  else none

/-- rename_all_files from src/lib.rs: perform one rename per plan entry,
failing fast on the first filesystem error with no rollback.  The result
also counts the renames performed; the Rust code iterates the HashMap in an
unspecified order, modelled here as the association-list order. -/
def rename_all_files (dir : List Str) (renamings : Plan) :
    Option (List Str × Nat) :=
  match renamings with
  | [] => some (dir, 0)
  | (old_name, new_name) :: rest =>
    match renameFile dir old_name new_name with
    | none => none
    | some dir' =>
      match rename_all_files dir' rest with
      | none => none
      | some (d, n) => some (d, n + 1)

/-- The error cases surfaced by run. -/
inductive RunError where
  | readError (e : ReadError)
  | planError (e : PlanError)
  | renameError
deriving DecidableEq

/-- run from src/lib.rs: list the directory (the directory listing is the
given entry list), read the data file, compute the plan, apply it.  A
planning error aborts before rename_all_files is reached, so no rename is
performed in that case. -/
def run (data_lines : List Str) (dir : List Str) :
    Except RunError (List Str × Nat) :=
  match read_csv data_lines with
  | .error e => .error (.readError e)
  | .ok rows =>
    match determine_renamings rows dir with
    | .error e => .error (.planError e)
    | .ok plan =>
      match rename_all_files dir plan with
      | none => .error .renameError
      | some result => .ok result

/-! ### Basic lemmas about the embedded operations -/

/-- List.isPrefixOf decides the exact, character-by-character prefix
relation, i.e. the semantics of Rust str::starts_with. -/
lemma isPrefixOf_eq_true_iff (l₁ l₂ : Str) :
    l₁.isPrefixOf l₂ = true ↔ ∃ t, l₂ = l₁ ++ t := by
  induction l₁ generalizing l₂ with
  | nil => simp [List.isPrefixOf]
  | cons a as ih =>
    cases l₂ with
    | nil => simp [List.isPrefixOf]
    | cons b bs =>
      simp only [List.isPrefixOf, Bool.and_eq_true, beq_iff_eq, ih, List.cons_append,
        List.cons.injEq]
      constructor
      · rintro ⟨rfl, t, rfl⟩
        exact ⟨t, rfl, rfl⟩
      · rintro ⟨t, rfl, rfl⟩
        exact ⟨rfl, t, rfl⟩

lemma planFind_filter_ne (p : Plan) (k k' : Str) (h : k' ≠ k) :
    planFind (p.filter (fun e => e.1 ≠ k)) k' = planFind p k' := by
  induction p with
  | nil => rfl
  | cons e rest ih =>
    simp only [List.filter_cons]
    by_cases he : e.1 = k
    · have h1 : (decide (e.1 ≠ k)) = false := by simp [he]
      rw [h1]
      simp only [Bool.false_eq_true, if_false]
      rw [ih, planFind, if_neg (by rw [he]; exact fun hh => h hh.symm)]
    · have h1 : (decide (e.1 ≠ k)) = true := by simp [he]
      rw [h1]
      simp only [if_true]
      rw [planFind, planFind, ih]

/-- Lookup after HashMap::insert: the inserted key maps to the new value,
every other key is untouched. -/
lemma planFind_planInsert (p : Plan) (k v k' : Str) :
    planFind (planInsert p k v) k' = if k = k' then some v else planFind p k' := by
  by_cases h : k = k'
  · simp [planInsert, planFind, h]
  · rw [if_neg h]
    show planFind ((k, v) :: p.filter (fun e => e.1 ≠ k)) k' = planFind p k'
    simp only [planFind]
    rw [if_neg h]
    exact planFind_filter_ne p k k' (fun hh => h hh.symm)

lemma processFiles_ok_of_all (lot : Str) (fs : List Str) (p : Plan)
    (h : ∀ f ∈ fs, (extract_file_suffix f).isSome) :
    ∃ q, processFiles lot fs p = .ok q := by
  induction fs generalizing p with
  | nil => exact ⟨p, rfl⟩
  | cons f rest ih =>
    have hf := h f (List.mem_cons_self f rest)
    cases hext : extract_file_suffix f with
    | none => rw [hext] at hf; cases hf
    | some s =>
      simp only [processFiles, hext]
      exact ih _ (fun g hg => h g (List.mem_cons_of_mem f hg))

lemma processFiles_error_of_mem (lot : Str) (p : Plan) (f : Str) {fs : List Str}
    (hf : f ∈ fs) (he : extract_file_suffix f = none) :
    processFiles lot fs p = .error .suffixExtraction := by
  induction hf generalizing p with
  | head as => simp [processFiles, he]
  | tail b hmem ih =>
    cases hext : extract_file_suffix b with
    | none => simp [processFiles, hext]
    | some s =>
      simp only [processFiles, hext]
      exact ih _

lemma processFiles_ok_all {lot : Str} {fs : List Str} {p q : Plan}
    (h : processFiles lot fs p = .ok q) :
    ∀ f ∈ fs, (extract_file_suffix f).isSome := by
  intro f hf
  cases hext : extract_file_suffix f with
  | some s => simp
  | none => rw [processFiles_error_of_mem lot p f hf hext] at h; cases h

/-- Lookup in the plan produced by one row's file loop: every object file of
the row is mapped to its composed new name, every other key keeps its prior
binding. -/
lemma processFiles_find (lot : Str) (fs : List Str) (p q : Plan)
    (h : processFiles lot fs p = .ok q) (k : Str) :
    (k ∈ fs → ∃ s, extract_file_suffix k = some s ∧
        planFind q k = some (compose_new_name lot s)) ∧
    (k ∉ fs → planFind q k = planFind p k) := by
  induction fs generalizing p with
  | nil =>
    cases h
    exact ⟨fun hk => absurd hk (List.not_mem_nil k), fun _ => rfl⟩
  | cons f rest ih =>
    cases hext : extract_file_suffix f with
    | none =>
      simp only [processFiles, hext] at h
      exact Except.noConfusion h
    | some s =>
      simp only [processFiles, hext] at h
      obtain ⟨ih1, ih2⟩ := ih _ h
      constructor
      · intro hk
        by_cases hr : k ∈ rest
        · exact ih1 hr
        · have hkf : k = f := by
            cases List.mem_cons.mp hk with
            | inl hh => exact hh
            | inr hh => exact absurd hh hr
          refine ⟨s, by rw [hkf]; exact hext, ?_⟩
          rw [ih2 hr, planFind_planInsert, if_pos hkf.symm]
      · intro hk
        have hkf : k ≠ f := fun hh => hk (hh ▸ List.mem_cons_self f rest)
        have hkr : k ∉ rest := fun hh => hk (List.mem_cons_of_mem f hh)
        rw [ih2 hkr, planFind_planInsert, if_neg (fun hh => hkf hh.symm)]

/-! ### Row-level characterisation -/

/-- The fault a single row produces, as a function of the row and of which
file names are listed: the malformed-row panics for a missing field 0 or 8,
and the suffix-extraction panic when some listed file matched by the row's
inventory number has no second period-delimited segment. -/
def rowError (row : Row) (files : List Str) : Option PlanError :=
  match row[0]? with
  | none => some (.malformedRow 0)
  | some _ =>
    match row[8]? with
    | none => some (.malformedRow 8)
    | some inv =>
      if (filter_object_files files inv).all (fun f => (extract_file_suffix f).isSome)
      then none
      else some .suffixExtraction

lemma processRow_ok_fields {p q : Plan} {row : Row} {files : List Str}
    (h : processRow p row files = .ok q) :
    (row[0]?).isSome ∧ (row[8]?).isSome := by
  cases h0 : row[0]? with
  | none => simp only [processRow, h0] at h; exact Except.noConfusion h
  | some lot =>
    cases h8 : row[8]? with
    | none => simp only [processRow, h0, h8] at h; exact Except.noConfusion h
    | some inv => simp [h0, h8]

lemma processRow_error_iff {p : Plan} {row : Row} {files : List Str} {e : PlanError} :
    processRow p row files = .error e ↔ rowError row files = some e := by
  cases h0 : row[0]? with
  | none =>
    simp only [processRow, rowError, h0]
    constructor
    · intro h; cases h; rfl
    · intro h; cases h; rfl
  | some lot =>
    cases h8 : row[8]? with
    | none =>
      simp only [processRow, rowError, h0, h8]
      constructor
      · intro h; cases h; rfl
      · intro h; cases h; rfl
    | some inv =>
      simp only [processRow, rowError, h0, h8]
      by_cases hall : (filter_object_files files inv).all
          (fun f => (extract_file_suffix f).isSome) = true
      · rw [if_pos hall]
        obtain ⟨q, hq⟩ := processFiles_ok_of_all lot (filter_object_files files inv) p
          (fun f hf => List.all_eq_true.mp hall f hf)
        rw [hq]
        constructor
        · intro h; exact Except.noConfusion h
        · intro h; exact Option.noConfusion h
      · rw [if_neg hall]
        have : ∃ f ∈ filter_object_files files inv, extract_file_suffix f = none := by
          by_contra hcon
          push_neg at hcon
          exact hall (List.all_eq_true.mpr (fun f hf => by
            cases hx : extract_file_suffix f with
            | none => exact absurd hx (hcon f hf)
            | some s => simp))
        obtain ⟨f, hf, hfe⟩ := this
        rw [processFiles_error_of_mem lot p f hf hfe]
        constructor
        · intro h; cases h; rfl
        · intro h; cases h; rfl

lemma rowError_none_of_processRow_ok {p q : Plan} {row : Row} {files : List Str}
    (h : processRow p row files = .ok q) :
    rowError row files = none := by
  cases hre : rowError row files with
  | none => rfl
  | some e => rw [processRow_error_iff.mpr hre] at h; exact Except.noConfusion h

lemma processRow_ok_of_rowError_none {row : Row} {files : List Str} (p : Plan)
    (h : rowError row files = none) :
    ∃ q, processRow p row files = .ok q := by
  cases hpr : processRow p row files with
  | ok q => exact ⟨q, rfl⟩
  | error e => rw [processRow_error_iff.mp hpr] at h; exact Option.noConfusion h

/-- Lookup in the plan produced by one row: a listed file name matched by the
row's inventory number is mapped to the composed new name; any other key
keeps its prior binding. -/
lemma processRow_find {p q : Plan} {row : Row} {files : List Str} {lot inv : Str}
    (h0 : row[0]? = some lot) (h8 : row[8]? = some inv)
    (h : processRow p row files = .ok q) (k : Str) :
    (k ∈ files → inv.isPrefixOf k = true → ∃ s, extract_file_suffix k = some s ∧
        planFind q k = some (compose_new_name lot s)) ∧
    (¬ (k ∈ files ∧ inv.isPrefixOf k = true) → planFind q k = planFind p k) := by
  simp only [processRow, h0, h8] at h
  have hmem : k ∈ filter_object_files files inv ↔ (k ∈ files ∧ inv.isPrefixOf k = true) := by
    simp [filter_object_files, List.mem_filter]
  obtain ⟨h1, h2⟩ := processFiles_find lot _ p q h k
  constructor
  · intro hk hp
    exact h1 (hmem.mpr ⟨hk, hp⟩)
  · intro hk
    exact h2 (fun hh => hk (hmem.mp hh))

/-! ### Loop-level characterisation -/

lemma determineRenamingsAux_append (xs ys : List Row) (files : List Str) (p : Plan) :
    determineRenamingsAux (xs ++ ys) files p =
      match determineRenamingsAux xs files p with
      | .error e => .error e
      | .ok m => determineRenamingsAux ys files m := by
  induction xs generalizing p with
  | nil => rfl
  | cons row rest ih =>
    simp only [List.cons_append, determineRenamingsAux]
    cases hpr : processRow p row files with
    | error e => rfl
    | ok m => exact ih m

/-- Rows whose inventory number does not match a key leave that key's
binding unchanged. -/
lemma determineRenamingsAux_preserve {rows : List Row} {files : List Str}
    {p q : Plan} {k : Str}
    (h : determineRenamingsAux rows files p = .ok q)
    (hnm : ∀ row ∈ rows, ∀ inv, row[8]? = some inv → inv.isPrefixOf k = false) :
    planFind q k = planFind p k := by
  induction rows generalizing p with
  | nil => cases h; rfl
  | cons row rest ih =>
    simp only [determineRenamingsAux] at h
    cases hpr : processRow p row files with
    | error e => rw [hpr] at h; exact Except.noConfusion h
    | ok p₁ =>
      rw [hpr] at h
      obtain ⟨hs0, hs8⟩ := processRow_ok_fields hpr
      obtain ⟨lot, h0⟩ := Option.isSome_iff_exists.mp hs0
      obtain ⟨inv, h8⟩ := Option.isSome_iff_exists.mp hs8
      have hstep : planFind p₁ k = planFind p k := by
        apply (processRow_find h0 h8 hpr k).2
        rintro ⟨-, hpre⟩
        rw [hnm row (List.mem_cons_self row rest) inv h8] at hpre
        exact Bool.noConfusion hpre
      rw [ih h (fun r hr => hnm r (List.mem_cons_of_mem row hr)), hstep]

lemma determineRenamingsAux_ok_fields {rows : List Row} {files : List Str} {p q : Plan}
    (h : determineRenamingsAux rows files p = .ok q) :
    ∀ row ∈ rows, (row[0]?).isSome ∧ (row[8]?).isSome := by
  induction rows generalizing p with
  | nil => intro row hr; exact absurd hr (List.not_mem_nil row)
  | cons r rest ih =>
    intro row hr
    simp only [determineRenamingsAux] at h
    cases hpr : processRow p r files with
    | error e => rw [hpr] at h; exact Except.noConfusion h
    | ok p₁ =>
      rw [hpr] at h
      cases List.mem_cons.mp hr with
      | inl hh => exact hh ▸ processRow_ok_fields hpr
      | inr hh => exact ih h row hh

/-- The binding a successful plan gives to a listed file name matched by a
row none of whose successors match it: the new name composed from that
row's lot number and the file's suffix. -/
lemma determineRenamingsAux_find_last {pre post : List Row} {row : Row}
    {files : List Str} {p q : Plan} {lot inv k s : Str}
    (h : determineRenamingsAux (pre ++ row :: post) files p = .ok q)
    (h0 : row[0]? = some lot) (h8 : row[8]? = some inv)
    (hk : k ∈ files) (hpre : inv.isPrefixOf k = true)
    (hs : extract_file_suffix k = some s)
    (hpost : ∀ row' ∈ post, ∀ inv', row'[8]? = some inv' → inv'.isPrefixOf k = false) :
    planFind q k = some (compose_new_name lot s) := by
  rw [determineRenamingsAux_append] at h
  cases hm : determineRenamingsAux pre files p with
  | error e => rw [hm] at h; exact Except.noConfusion h
  | ok m =>
    rw [hm] at h
    simp only [determineRenamingsAux] at h
    cases hpr : processRow m row files with
    | error e => rw [hpr] at h; exact Except.noConfusion h
    | ok m₁ =>
      rw [hpr] at h
      obtain ⟨s', hs', hfind⟩ := (processRow_find h0 h8 hpr k).1 hk hpre
      have hss : s' = s := by
        rw [hs] at hs'
        exact (Option.some.inj hs').symm
      rw [determineRenamingsAux_preserve h hpost, hfind, hss]

/-! ### Key uniqueness in the plan -/

/-- How many entries of the plan carry the given key. -/
def keyCount (p : Plan) (k : Str) : Nat :=
  (p.filter (fun e => e.1 = k)).length

/-- Every key of the plan occurs in at most one entry, the HashMap
key-uniqueness invariant. -/
def planKeysUnique (p : Plan) : Prop :=
  ∀ k, keyCount p k ≤ 1

lemma keyCount_planInsert_self (p : Plan) (k v : Str) :
    keyCount (planInsert p k v) k = 1 := by
  unfold keyCount planInsert
  have hnil : (p.filter (fun e => e.1 ≠ k)).filter (fun e => e.1 = k) = [] := by
    rw [List.filter_filter]
    apply List.filter_eq_nil_iff.mpr
    intro e he
    by_cases hh : e.1 = k <;> simp [hh]
  simp [List.filter_cons, hnil]

lemma keyCount_planInsert_other (p : Plan) (k v k' : Str) (h : k' ≠ k) :
    keyCount (planInsert p k v) k' = keyCount p k' := by
  unfold keyCount planInsert
  have hhead : ¬ ((k, v).1 = k') := fun hh => h hh.symm
  rw [List.filter_cons]
  have hcond : (decide ((k, v).1 = k')) = false := by simp [hhead]
  rw [hcond]
  simp only [Bool.false_eq_true, if_false]
  rw [List.filter_filter]
  congr 1
  apply List.filter_congr
  intro e he
  by_cases hh : e.1 = k' <;> simp [hh, h]

lemma planKeysUnique_planInsert {p : Plan} (h : planKeysUnique p) (k v : Str) :
    planKeysUnique (planInsert p k v) := by
  intro k'
  by_cases hk : k' = k
  · rw [hk, keyCount_planInsert_self]
  · rw [keyCount_planInsert_other p k v k' hk]
    exact h k'

lemma planKeysUnique_processFiles {lot : Str} {fs : List Str} {p q : Plan}
    (h : processFiles lot fs p = .ok q) (hp : planKeysUnique p) :
    planKeysUnique q := by
  induction fs generalizing p with
  | nil => cases h; exact hp
  | cons f rest ih =>
    cases hext : extract_file_suffix f with
    | none =>
      simp only [processFiles, hext] at h
      exact Except.noConfusion h
    | some s =>
      simp only [processFiles, hext] at h
      exact ih h (planKeysUnique_planInsert hp f _)

lemma planKeysUnique_aux {rows : List Row} {files : List Str} {p q : Plan}
    (h : determineRenamingsAux rows files p = .ok q) (hp : planKeysUnique p) :
    planKeysUnique q := by
  induction rows generalizing p with
  | nil => cases h; exact hp
  | cons row rest ih =>
    simp only [determineRenamingsAux] at h
    cases hpr : processRow p row files with
    | error e => rw [hpr] at h; exact Except.noConfusion h
    | ok p₁ =>
      rw [hpr] at h
      obtain ⟨hs0, hs8⟩ := processRow_ok_fields hpr
      obtain ⟨lot, h0⟩ := Option.isSome_iff_exists.mp hs0
      obtain ⟨inv, h8⟩ := Option.isSome_iff_exists.mp hs8
      simp only [processRow, h0, h8] at hpr
      exact ih h (planKeysUnique_processFiles hpr hp)

lemma keyCount_pos_of_planFind {p : Plan} {k v : Str} (h : planFind p k = some v) :
    1 ≤ keyCount p k := by
  induction p with
  | nil => exact Option.noConfusion h
  | cons e rest ih =>
    unfold keyCount
    rw [List.filter_cons]
    by_cases he : e.1 = k
    · simp [he]
    · rw [planFind, if_neg he] at h
      have := ih h
      have hcond : (decide (e.1 = k)) = false := by simp [he]
      rw [hcond]
      simpa using this

/-! ### Bindings never disappear from the plan -/

lemma planFind_isSome_planInsert {p : Plan} {k : Str} (k' v : Str)
    (h : (planFind p k).isSome) : (planFind (planInsert p k' v) k).isSome := by
  rw [planFind_planInsert]
  by_cases hh : k' = k <;> simp [hh, h]

lemma planFind_isSome_processFiles {lot : Str} {fs : List Str} {p q : Plan} {k : Str}
    (h : processFiles lot fs p = .ok q) (hk : (planFind p k).isSome) :
    (planFind q k).isSome := by
  induction fs generalizing p with
  | nil => cases h; exact hk
  | cons f rest ih =>
    cases hext : extract_file_suffix f with
    | none =>
      simp only [processFiles, hext] at h
      exact Except.noConfusion h
    | some s =>
      simp only [processFiles, hext] at h
      exact ih h (planFind_isSome_planInsert f _ hk)

lemma planFind_isSome_aux {rows : List Row} {files : List Str} {p q : Plan} {k : Str}
    (h : determineRenamingsAux rows files p = .ok q) (hk : (planFind p k).isSome) :
    (planFind q k).isSome := by
  induction rows generalizing p with
  | nil => cases h; exact hk
  | cons row rest ih =>
    simp only [determineRenamingsAux] at h
    cases hpr : processRow p row files with
    | error e => rw [hpr] at h; exact Except.noConfusion h
    | ok p₁ =>
      rw [hpr] at h
      obtain ⟨hs0, hs8⟩ := processRow_ok_fields hpr
      obtain ⟨lot, h0⟩ := Option.isSome_iff_exists.mp hs0
      obtain ⟨inv, h8⟩ := Option.isSome_iff_exists.mp hs8
      simp only [processRow, h0, h8] at hpr
      exact ih h (planFind_isSome_processFiles hpr hk)

/-! ### The plan does not depend on listing order -/

/-- The fault of a row depends only on which file names are listed, not on
their order. -/
lemma rowError_perm {files files' : List Str} (hp : files.Perm files') (row : Row) :
    rowError row files = rowError row files' := by
  cases h0 : row[0]? with
  | none => simp [rowError, h0]
  | some lot =>
    cases h8 : row[8]? with
    | none => simp [rowError, h0, h8]
    | some inv =>
      have hall : (filter_object_files files inv).all
            (fun f => (extract_file_suffix f).isSome) =
          (filter_object_files files' inv).all
            (fun f => (extract_file_suffix f).isSome) := by
        have hiff : ((filter_object_files files inv).all
              (fun f => (extract_file_suffix f).isSome) = true) ↔
            ((filter_object_files files' inv).all
              (fun f => (extract_file_suffix f).isSome) = true) := by
          simp only [List.all_eq_true, filter_object_files, List.mem_filter]
          constructor
          · intro h f hf
            exact h f ⟨hp.mem_iff.mpr hf.1, hf.2⟩
          · intro h f hf
            exact h f ⟨hp.mem_iff.mp hf.1, hf.2⟩
        cases hA : (filter_object_files files inv).all (fun f => (extract_file_suffix f).isSome) with
        | true => exact (hiff.mp hA).symm
        | false =>
          cases hB : (filter_object_files files' inv).all
              (fun f => (extract_file_suffix f).isSome) with
          | true => rw [← hA, hiff.mpr hB]
          | false => rfl
      simp only [rowError, h0, h8, hall]

/-- Running the row loop over two permuted file listings produces the same
error, or plans with identical lookups. -/
lemma determineRenamingsAux_perm {rows : List Row} {files files' : List Str}
    (hperm : files.Perm files') {p p' : Plan}
    (hfind : ∀ k, planFind p k = planFind p' k) :
    (∀ e, determineRenamingsAux rows files p = .error e ↔
        determineRenamingsAux rows files' p' = .error e) ∧
    (∀ q q', determineRenamingsAux rows files p = .ok q →
        determineRenamingsAux rows files' p' = .ok q' →
        ∀ k, planFind q k = planFind q' k) := by
  induction rows generalizing p p' with
  | nil =>
    refine ⟨fun e => ?_, fun q q' hq hq' k => ?_⟩
    · constructor
      · intro h; exact Except.noConfusion h
      · intro h; exact Except.noConfusion h
    · cases hq; cases hq'; exact hfind k
  | cons row rest ih =>
    simp only [determineRenamingsAux]
    cases hpr : processRow p row files with
    | error e0 =>
      have hpr' : processRow p' row files' = .error e0 := by
        rw [processRow_error_iff, ← rowError_perm hperm row]
        exact processRow_error_iff.mp hpr
      rw [hpr']
      refine ⟨fun e => Iff.rfl, fun q q' hq hq' => ?_⟩
      exact Except.noConfusion hq
    | ok p₁ =>
      have hre : rowError row files' = none := by
        rw [← rowError_perm hperm row]
        exact rowError_none_of_processRow_ok hpr
      obtain ⟨p₁', hpr'⟩ := processRow_ok_of_rowError_none p' hre
      rw [hpr']
      obtain ⟨hs0, hs8⟩ := processRow_ok_fields hpr
      obtain ⟨lot, h0⟩ := Option.isSome_iff_exists.mp hs0
      obtain ⟨inv, h8⟩ := Option.isSome_iff_exists.mp hs8
      have hfind₁ : ∀ k, planFind p₁ k = planFind p₁' k := by
        intro k
        by_cases hm : k ∈ files ∧ inv.isPrefixOf k = true
        · obtain ⟨s, hsx, hq⟩ := (processRow_find h0 h8 hpr k).1 hm.1 hm.2
          obtain ⟨s', hsx', hq'⟩ := (processRow_find h0 h8 hpr' k).1
            (hperm.mem_iff.mp hm.1) hm.2
          rw [hq, hq']
          rw [hsx] at hsx'
          rw [Option.some.inj hsx']
        · have h2 := (processRow_find h0 h8 hpr k).2 hm
          have hm' : ¬ (k ∈ files' ∧ inv.isPrefixOf k = true) := by
            intro hh
            exact hm ⟨hperm.mem_iff.mpr hh.1, hh.2⟩
          have h2' := (processRow_find h0 h8 hpr' k).2 hm'
          rw [h2, h2']
          exact hfind k
      exact ih hfind₁

lemma determineRenamingsAux_no_match (rows : List Row) (files : List Str) :
    ∀ p, (∀ row ∈ rows, (row[0]?).isSome ∧ (row[8]?).isSome) →
      (∀ row ∈ rows, ∀ inv, row[8]? = some inv → ∀ f ∈ files, inv.isPrefixOf f = false) →
      determineRenamingsAux rows files p = .ok p := by
  induction rows with
  | nil => intro p _ _; rfl
  | cons row rest ih =>
    intro p hfields hnm
    obtain ⟨hs0, hs8⟩ := hfields row (List.mem_cons_self row rest)
    obtain ⟨lot, h0⟩ := Option.isSome_iff_exists.mp hs0
    obtain ⟨inv, h8⟩ := Option.isSome_iff_exists.mp hs8
    have hfil : filter_object_files files inv = [] := by
      apply List.filter_eq_nil_iff.mpr
      intro f hf
      simp [hnm row (List.mem_cons_self row rest) inv h8 f hf]
    simp only [determineRenamingsAux, processRow, h0, h8, hfil, processFiles]
    exact ih p (fun r hr => hfields r (List.mem_cons_of_mem row hr))
      (fun r hr => hnm r (List.mem_cons_of_mem row hr))

/-! ### The claims -/

/-- Claim C2: for a data row whose field 0 (lot number) and field 8
(inventory number) are present, every listed file name that starts with the
inventory number and has a second period-delimited segment is mapped by the
computed plan to the name composed of the lot number, an underscore, that
suffix taken verbatim, and the .jpg extension — stated for a row that no
later row outmatches, the conflicting case being claim C4's
last-write-wins. -/
theorem claim_C2_matched_file_maps_to_composed_name
    (pre post : List Row) (row : Row) (files : List Str) (plan : Plan)
    (lot inv file s : Str)
    (h0 : row[0]? = some lot) (h8 : row[8]? = some inv)
    (hfile : file ∈ files) (hmatch : inv.isPrefixOf file = true)
    (hs : extract_file_suffix file = some s)
    (hpost : ∀ row' ∈ post, ∀ inv', row'[8]? = some inv' → inv'.isPrefixOf file = false)
    (hok : determine_renamings (pre ++ row :: post) files = .ok plan) :
    planFind plan file = some (compose_new_name lot s) :=
  determineRenamingsAux_find_last hok h0 h8 hfile hmatch hs hpost

/-- Witness for claim C2: the spec's scenario, the row with lot number 1 and
inventory number 00243878 and the files 00243878.1.jpg and 00243878.2.jpg;
the first file is mapped to 1_1.jpg. -/
theorem claim_C2_witness :
    planFind [("00243878.2.jpg".toList, "1_2.jpg".toList),
        ("00243878.1.jpg".toList, "1_1.jpg".toList)] "00243878.1.jpg".toList =
      some "1_1.jpg".toList := by
  have := claim_C2_matched_file_maps_to_composed_name [] []
    ["1".toList, [], [], [], [], [], [], [], "00243878".toList]
    ["00243878.1.jpg".toList, "00243878.2.jpg".toList]
    [("00243878.2.jpg".toList, "1_2.jpg".toList),
      ("00243878.1.jpg".toList, "1_1.jpg".toList)]
    "1".toList "00243878".toList "00243878.1.jpg".toList "1".toList
    (by rfl) (by rfl) (by decide) (by decide) (by rfl)
    (by intro row' hr'; exact absurd hr' (List.not_mem_nil row'))
    (by rfl)
  exact this

/-- Claim C3: a file name that starts with no row's inventory number is
absent from the computed plan; rows matching no file cause no error and
contribute nothing, so when no listed file matches any row the plan is
empty. -/
theorem claim_C3_unmatched_files_absent (rows : List Row) (files : List Str) :
    (∀ plan file, determine_renamings rows files = .ok plan →
      (∀ row ∈ rows, ∀ inv, row[8]? = some inv → inv.isPrefixOf file = false) →
      planFind plan file = none) ∧
    ((∀ row ∈ rows, (row[0]?).isSome ∧ (row[8]?).isSome) →
      (∀ row ∈ rows, ∀ inv, row[8]? = some inv → ∀ f ∈ files, inv.isPrefixOf f = false) →
      determine_renamings rows files = .ok []) := by
  constructor
  · intro plan file hok hnm
    have h : determineRenamingsAux rows files [] = .ok plan := hok
    exact (determineRenamingsAux_preserve h hnm).trans rfl
  · intro hfields hnm
    exact determineRenamingsAux_no_match rows files [] hfields hnm

/-- Witness for claim C3: a well-formed row with inventory number 00243344
and a listing holding only foo.2.jpg produce the empty plan, from which the
file is absent. -/
theorem claim_C3_witness :
    determine_renamings [["1".toList, [], [], [], [], [], [], [], "00243344".toList]]
      ["foo.2.jpg".toList] = .ok [] ∧
    planFind ([] : Plan) "foo.2.jpg".toList = none := by
  have hnm : ∀ row ∈ [["1".toList, [], [], [], [], [], [], [], "00243344".toList]],
      ∀ inv, row[8]? = some inv →
      ∀ f ∈ ["foo.2.jpg".toList], inv.isPrefixOf f = false := by
    intro row hr inv hinv f hf
    have hrow : row = ["1".toList, [], [], [], [], [], [], [], "00243344".toList] := by
      simpa using hr
    subst hrow
    have h8 : (["1".toList, [], [], [], [], [], [], [],
        "00243344".toList] : Row)[8]? = some "00243344".toList := by rfl
    rw [h8] at hinv
    have hinv' : inv = "00243344".toList := (Option.some.inj hinv).symm
    subst hinv'
    have hfile : f = "foo.2.jpg".toList := by simpa using hf
    subst hfile
    decide
  constructor
  · exact (claim_C3_unmatched_files_absent
      [["1".toList, [], [], [], [], [], [], [], "00243344".toList]]
      ["foo.2.jpg".toList]).2 (by decide) hnm
  · exact (claim_C3_unmatched_files_absent
      [["1".toList, [], [], [], [], [], [], [], "00243344".toList]]
      ["foo.2.jpg".toList]).1 [] "foo.2.jpg".toList
      ((claim_C3_unmatched_files_absent _ _).2 (by decide) hnm)
      (fun row hr inv hinv => hnm row hr inv hinv _ (List.mem_singleton.mpr rfl))

/-- Claim C4: when one file name is a prefix match for two different rows'
inventory numbers, the computed plan holds exactly one entry for that file
name, and its new name is composed from the row processed last — map
insertion is last-write-wins on key conflicts. -/
theorem claim_C4_last_write_wins
    (pre mid post : List Row) (row1 row2 : Row) (files : List Str) (plan : Plan)
    (lot2 inv1 inv2 file s : Str)
    (h18 : row1[8]? = some inv1) (hm1 : inv1.isPrefixOf file = true)
    (h20 : row2[0]? = some lot2) (h28 : row2[8]? = some inv2)
    (hm2 : inv2.isPrefixOf file = true)
    (hfile : file ∈ files) (hs : extract_file_suffix file = some s)
    (hpost : ∀ row' ∈ post, ∀ inv', row'[8]? = some inv' → inv'.isPrefixOf file = false)
    (hok : determine_renamings (pre ++ row1 :: mid ++ row2 :: post) files = .ok plan) :
    keyCount plan file = 1 ∧ planFind plan file = some (compose_new_name lot2 s) := by
  have hassoc : pre ++ row1 :: mid ++ row2 :: post =
      (pre ++ row1 :: mid) ++ row2 :: post := by simp
  rw [hassoc] at hok
  have hok' : determineRenamingsAux ((pre ++ row1 :: mid) ++ row2 :: post) files [] =
      .ok plan := hok
  have hfind : planFind plan file = some (compose_new_name lot2 s) :=
    determineRenamingsAux_find_last hok' h20 h28 hfile hm2 hs hpost
  refine ⟨?_, hfind⟩
  have hle : keyCount plan file ≤ 1 :=
    planKeysUnique_aux hok' (fun k => by simp [keyCount]) file
  have hge : 1 ≤ keyCount plan file := keyCount_pos_of_planFind hfind
  omega

/-- Witness for claim C4: rows with lot numbers 1 and 2 both carrying
inventory number A and the single file A.1.jpg; the plan holds exactly one
entry for A.1.jpg, mapped to the second row's 2_1.jpg. -/
theorem claim_C4_witness :
    keyCount [("A.1.jpg".toList, "2_1.jpg".toList)] "A.1.jpg".toList = 1 ∧
    planFind [("A.1.jpg".toList, "2_1.jpg".toList)] "A.1.jpg".toList =
      some "2_1.jpg".toList := by
  have := claim_C4_last_write_wins [] [] []
    ["1".toList, [], [], [], [], [], [], [], "A".toList]
    ["2".toList, [], [], [], [], [], [], [], "A".toList]
    ["A.1.jpg".toList] [("A.1.jpg".toList, "2_1.jpg".toList)]
    "2".toList "A".toList "A".toList "A.1.jpg".toList "1".toList
    (by rfl) (by decide) (by rfl) (by rfl) (by decide) (by decide) (by rfl)
    (by intro r hr; exact absurd hr (List.not_mem_nil r))
    (by rfl)
  exact this

lemma determine_error_malformed (files : List Str)
    (hfs : ∀ f ∈ files, (extract_file_suffix f).isSome) :
    ∀ (rows : List Row) (p : Plan),
      (∃ row ∈ rows, row[0]? = none ∨ row[8]? = none) →
      ∃ i, determineRenamingsAux rows files p = .error (.malformedRow i) := by
  intro rows
  induction rows with
  | nil =>
    intro p h
    obtain ⟨row, hr, -⟩ := h
    exact absurd hr (List.not_mem_nil row)
  | cons row rest ih =>
    intro p hex
    cases h0 : row[0]? with
    | none =>
      refine ⟨0, ?_⟩
      simp [determineRenamingsAux, processRow, h0]
    | some lot =>
      cases h8 : row[8]? with
      | none =>
        refine ⟨8, ?_⟩
        simp [determineRenamingsAux, processRow, h0, h8]
      | some inv =>
        have hex' : ∃ r ∈ rest, r[0]? = none ∨ r[8]? = none := by
          obtain ⟨r, hr, hcase⟩ := hex
          cases List.mem_cons.mp hr with
          | inl hh =>
            subst hh
            cases hcase with
            | inl hc => rw [h0] at hc; exact Option.noConfusion hc
            | inr hc => rw [h8] at hc; exact Option.noConfusion hc
          | inr hh => exact ⟨r, hh, hcase⟩
        obtain ⟨p₁, hp₁⟩ := processFiles_ok_of_all lot (filter_object_files files inv) p
          (fun f hf => hfs f (List.mem_filter.mp hf).1)
        obtain ⟨i, hi⟩ := ih p₁ hex'
        refine ⟨i, ?_⟩
        simp [determineRenamingsAux, processRow, h0, h8, hp₁, hi]

lemma determine_suffix_error_iff (files : List Str) :
    ∀ (rows : List Row) (p : Plan),
      (∀ row ∈ rows, (row[0]?).isSome ∧ (row[8]?).isSome) →
      (determineRenamingsAux rows files p = .error .suffixExtraction ↔
        ∃ row ∈ rows, ∃ inv, row[8]? = some inv ∧
          ∃ f ∈ files, inv.isPrefixOf f = true ∧ extract_file_suffix f = none) := by
  intro rows
  induction rows with
  | nil =>
    intro p _
    constructor
    · intro h
      exact Except.noConfusion h
    · rintro ⟨row, hr, -⟩
      exact absurd hr (List.not_mem_nil row)
  | cons row rest ih =>
    intro p hfields
    obtain ⟨hs0, hs8⟩ := hfields row (List.mem_cons_self row rest)
    obtain ⟨lot, h0⟩ := Option.isSome_iff_exists.mp hs0
    obtain ⟨inv, h8⟩ := Option.isSome_iff_exists.mp hs8
    by_cases hbad : ∃ f ∈ files, inv.isPrefixOf f = true ∧ extract_file_suffix f = none
    · obtain ⟨f, hf, hpre, hnone⟩ := hbad
      have hmem : f ∈ filter_object_files files inv := List.mem_filter.mpr ⟨hf, hpre⟩
      have herr : determineRenamingsAux (row :: rest) files p = .error .suffixExtraction := by
        simp [determineRenamingsAux, processRow, h0, h8,
          processFiles_error_of_mem lot p f hmem hnone]
      rw [herr]
      constructor
      · intro _
        exact ⟨row, List.mem_cons_self row rest, inv, h8, f, hf, hpre, hnone⟩
      · intro _
        rfl
    · have hallok : ∀ f ∈ filter_object_files files inv, (extract_file_suffix f).isSome := by
        intro f hf
        obtain ⟨hf1, hf2⟩ := List.mem_filter.mp hf
        cases hx : extract_file_suffix f with
        | some s => simp
        | none => exact absurd ⟨f, hf1, hf2, hx⟩ hbad
      obtain ⟨p₁, hp₁⟩ := processFiles_ok_of_all lot _ p hallok
      have hstep : determineRenamingsAux (row :: rest) files p =
          determineRenamingsAux rest files p₁ := by
        simp [determineRenamingsAux, processRow, h0, h8, hp₁]
      rw [hstep, ih p₁ (fun r hr => hfields r (List.mem_cons_of_mem row hr))]
      constructor
      · rintro ⟨r, hr, hrest⟩
        exact ⟨r, List.mem_cons_of_mem row hr, hrest⟩
      · rintro ⟨r, hr, inv', h8', f, hf, hpre, hnone⟩
        cases List.mem_cons.mp hr with
        | inl hh =>
          subst hh
          rw [h8] at h8'
          have hinv : inv = inv' := Option.some.inj h8'
          subst hinv
          exact absurd ⟨f, hf, hpre, hnone⟩ hbad
        | inr hh =>
          exact ⟨r, hh, inv', h8', f, hf, hpre, hnone⟩

/-- Counterexample to claim C5 as stated: in the row list (lot 1 /
inventory A, then the one-field row x missing field 8) against the listed
file A, planning does abort, but with the suffix-extraction error raised by
the first row's matched period-free file, not with a malformed-row error,
although the second row lacks field 8. -/
theorem claim_C5_counterexample :
    ((["x".toList] : Row)[8]?) = none ∧
    determine_renamings
      [["1".toList, [], [], [], [], [], [], [], "A".toList], ["x".toList]]
      ["A".toList] = .error .suffixExtraction := by
  exact ⟨rfl, rfl⟩

/-- Claim C5 (amended): a row lacking field 0 or field 8 makes planning fail
and abort with no plan; the error is the malformed-row one whenever every
listed file name has a second period-delimited segment (otherwise an earlier
row's suffix-extraction failure can fire first); planning succeeds only when
every row has both fields; and a planning error aborts the whole run before
rename_all_files is reached. -/
theorem claim_C5_malformed_row_fatal (rows : List Row) (files : List Str) :
    ((∃ row ∈ rows, row[0]? = none ∨ row[8]? = none) →
      ∃ e, determine_renamings rows files = .error e) ∧
    ((∀ f ∈ files, (extract_file_suffix f).isSome) →
      (∃ row ∈ rows, row[0]? = none ∨ row[8]? = none) →
      ∃ i, determine_renamings rows files = .error (.malformedRow i)) ∧
    (∀ plan, determine_renamings rows files = .ok plan →
      ∀ row ∈ rows, (row[0]?).isSome ∧ (row[8]?).isSome) ∧
    (∀ lines rows' e, read_csv lines = .ok rows' →
      determine_renamings rows' files = .error e →
      run lines files = .error (.planError e)) := by
  have hfields : ∀ plan, determine_renamings rows files = .ok plan →
      ∀ row ∈ rows, (row[0]?).isSome ∧ (row[8]?).isSome := by
    intro plan hok
    exact determineRenamingsAux_ok_fields hok
  refine ⟨?_, ?_, hfields, ?_⟩
  · intro hex
    cases hdet : determine_renamings rows files with
    | error e => exact ⟨e, rfl⟩
    | ok plan =>
      obtain ⟨row, hr, hcase⟩ := hex
      obtain ⟨hs0, hs8⟩ := hfields plan hdet row hr
      cases hcase with
      | inl hc => rw [hc] at hs0; exact Bool.noConfusion hs0
      | inr hc => rw [hc] at hs8; exact Bool.noConfusion hs8
  · intro hfs hex
    exact determine_error_malformed files hfs rows [] hex
  · intro lines rows' e hread hdet
    simp [run, hread, hdet]

/-- Witness for claim C5: the single one-field row x (field 8 absent)
against the listed file A.1.jpg aborts planning with a malformed-row
error. -/
theorem claim_C5_witness :
    ∃ i, determine_renamings [["x".toList]] ["A.1.jpg".toList] =
      .error (.malformedRow i) := by
  exact (claim_C5_malformed_row_fatal [["x".toList]] ["A.1.jpg".toList]).2.1
    (by decide) ⟨["x".toList], List.mem_singleton.mpr rfl, Or.inr rfl⟩

/-- Counterexample to claim C6 as stated: with the one-field row x (missing
field 8) before the row lot 1 / inventory A, and the listed file A, the
matched file A has fewer than two period-delimited segments, yet planning
aborts with the malformed-row error of the earlier row, not with the
suffix-extraction error — so the claimed iff fails right-to-left. -/
theorem claim_C6_counterexample :
    determine_renamings
      [["x".toList], ["1".toList, [], [], [], [], [], [], [], "A".toList]]
      ["A".toList] = .error (.malformedRow 8) ∧
    ("A".toList).isPrefixOf "A".toList = true ∧
    extract_file_suffix "A".toList = none := by
  exact ⟨rfl, rfl, rfl⟩

/-- Claim C6 (amended): suffix extraction takes the period-split segment at
zero-indexed position 1 and fails exactly on names with fewer than two
period-delimited segments; for rows that all carry fields 0 and 8, planning
fails with the suffix-extraction error iff some listed file name matched by
a row's inventory number has fewer than two segments (a malformed earlier
row would abort with its own error first); and a planning error aborts the
whole run before rename_all_files is reached. -/
theorem claim_C6_suffix_error_iff (rows : List Row) (files : List Str)
    (hfields : ∀ row ∈ rows, (row[0]?).isSome ∧ (row[8]?).isSome) :
    (determine_renamings rows files = .error .suffixExtraction ↔
      ∃ row ∈ rows, ∃ inv, row[8]? = some inv ∧
        ∃ f ∈ files, inv.isPrefixOf f = true ∧ extract_file_suffix f = none) ∧
    (∀ f : Str, extract_file_suffix f = (splitOnChar '.' f)[1]?) ∧
    (∀ f : Str, (extract_file_suffix f = none ↔ (splitOnChar '.' f).length < 2)) ∧
    (∀ lines, read_csv lines = .ok rows →
      determine_renamings rows files = .error .suffixExtraction →
      run lines files = .error (.planError .suffixExtraction)) := by
  refine ⟨determine_suffix_error_iff files rows [] hfields, fun f => rfl, ?_, ?_⟩
  · intro f
    rw [extract_file_suffix, List.getElem?_eq_none_iff]
    omega
  · intro lines hread hdet
    simp [run, hread, hdet]

/-- Witness for claim C6: the row lot 1 / inventory A with the matched
period-free file A makes planning abort with the suffix-extraction error. -/
theorem claim_C6_witness :
    determine_renamings [["1".toList, [], [], [], [], [], [], [], "A".toList]]
      ["A".toList] = .error .suffixExtraction := by
  exact ((claim_C6_suffix_error_iff
      [["1".toList, [], [], [], [], [], [], [], "A".toList]] ["A".toList]
      (by decide)).1).mpr
    ⟨["1".toList, [], [], [], [], [], [], [], "A".toList], List.mem_singleton.mpr rfl,
      "A".toList, rfl, "A".toList, List.mem_singleton.mpr rfl, by decide, rfl⟩

/-- Claim C7: the planner's prefix match is an exact, case-sensitive,
character-by-character comparison — a file name belongs to a row iff it
extends the inventory number's exact text — so the file 0024337 is not
matched by inventory number 00243344 (no numeric-value comparison), and a
capitalised name is not matched by a lower-case inventory number. -/
theorem claim_C7_exact_prefix_match (files : List Str) (inv file : Str) :
    (file ∈ filter_object_files files inv ↔ file ∈ files ∧ ∃ t, file = inv ++ t) ∧
    filter_object_files ["0024337".toList] "00243344".toList = [] ∧
    filter_object_files ["Abc.1.jpg".toList] "abc".toList = [] := by
  refine ⟨?_, by decide, by decide⟩
  constructor
  · intro h
    obtain ⟨h1, h2⟩ := List.mem_filter.mp h
    exact ⟨h1, (isPrefixOf_eq_true_iff inv file).mp h2⟩
  · rintro ⟨h1, t, rfl⟩
    exact List.mem_filter.mpr ⟨h1, (isPrefixOf_eq_true_iff inv _).mpr ⟨t, rfl⟩⟩

/-- Claim C1 (evidence of the divergence): read_csv leaves the csv reader's
has_headers at its default of true, so the first line of the data file is
consumed as a header.  On the two-line tab-delimited file with lines 1-tab-a
and 2-tab-b, only the second line's record is returned: the first line's
record is absent, although the documented data-file format has no header
line and the repository's own test parses the same format with headers
disabled. -/
theorem claim_C1_first_line_dropped :
    read_csv ["1\ta".toList, "2\tb".toList] = .ok [["2".toList, "b".toList]] ∧
    splitOnChar '\t' "1\ta".toList = ["1".toList, "a".toList] ∧
    ["1".toList, "a".toList] ∉ [["2".toList, "b".toList]] := by
  exact ⟨rfl, rfl, by decide⟩

/-! ### Applying the plan to the directory -/

lemma length_filter_ne_of_nodup {dir : List Str} {a : Str}
    (hnd : dir.Nodup) (ha : a ∈ dir) :
    (dir.filter (fun x => x ≠ a)).length + 1 = dir.length := by
  induction dir with
  | nil => cases ha
  | cons b rest ih =>
    rw [List.filter_cons]
    by_cases hb : b = a
    · subst hb
      have hnotin : b ∉ rest := (List.nodup_cons.mp hnd).1
      have hself : rest.filter (fun x => x ≠ b) = rest :=
        List.filter_eq_self.mpr
          (fun x hx => by
            simp only [ne_eq, decide_eq_true_eq]
            exact fun hxy => hnotin (hxy ▸ hx))
      have hbb : (decide (b ≠ b)) = false := by simp
      rw [hbb]
      simp only [Bool.false_eq_true, if_false, hself, List.length_cons]
    · have ha' : a ∈ rest := by
        cases List.mem_cons.mp ha with
        | inl hh => exact absurd hh.symm hb
        | inr hh => exact hh
      have hrec := ih (List.nodup_cons.mp hnd).2 ha'
      have hcond : (decide (b ≠ a)) = true := by simp [hb]
      rw [hcond]
      simp only [if_true, List.length_cons]
      omega

/-- Applying a plan whose keys are distinct existing entries and whose new
names are pairwise distinct and fresh: every entry is renamed, the entry
count is preserved, and entries not named by a key survive. -/
lemma rename_all_files_fresh (plan : Plan) :
    ∀ dir : List Str, dir.Nodup →
      (plan.map Prod.fst).Nodup →
      (∀ e ∈ plan, e.1 ∈ dir) →
      (plan.map Prod.snd).Nodup →
      (∀ e ∈ plan, e.2 ∉ dir) →
      ∃ dir', rename_all_files dir plan = some (dir', plan.length) ∧
        dir'.length = dir.length ∧
        (∀ f ∈ dir, (∀ e ∈ plan, e.1 ≠ f) → f ∈ dir') := by
  induction plan with
  | nil =>
    intro dir _ _ _ _ _
    exact ⟨dir, rfl, rfl, fun f hf _ => hf⟩
  | cons entry rest ih =>
    intro dir hnd hkeys hkeysmem hnews hfresh
    obtain ⟨old, new⟩ := entry
    have hold : old ∈ dir := hkeysmem (old, new) (List.mem_cons_self _ _)
    have hnew : new ∉ dir := hfresh (old, new) (List.mem_cons_self _ _)
    have hgeq : dir.filter (fun x => x ≠ old ∧ x ≠ new) =
        dir.filter (fun x => x ≠ old) := by
      apply List.filter_congr
      intro x hx
      have hxnew : x ≠ new := fun hh => hnew (hh ▸ hx)
      by_cases hxo : x = old <;> simp [hxo, hxnew]
    have hsub : ∀ x, x ∈ dir.filter (fun x => x ≠ old) → x ∈ dir :=
      fun x hx => (List.mem_filter.mp hx).1
    have hnd₁ : (new :: dir.filter (fun x => x ≠ old)).Nodup := by
      rw [List.nodup_cons]
      exact ⟨fun hh => hnew (hsub new hh), List.Nodup.filter _ hnd⟩
    have hkeymem₁ : ∀ e ∈ rest, e.1 ∈ new :: dir.filter (fun x => x ≠ old) := by
      intro e he
      have hedir : e.1 ∈ dir := hkeysmem e (List.mem_cons_of_mem _ he)
      have heold : e.1 ≠ old := by
        intro hh
        have : old ∈ rest.map Prod.fst := hh ▸ List.mem_map_of_mem Prod.fst he
        exact (List.nodup_cons.mp hkeys).1 this
      exact List.mem_cons_of_mem _ (List.mem_filter.mpr ⟨hedir, by simp [heold]⟩)
    have hfresh₁ : ∀ e ∈ rest, e.2 ∉ new :: dir.filter (fun x => x ≠ old) := by
      intro e he hmem
      have henew : e.2 ≠ new := by
        intro hh
        have : new ∈ rest.map Prod.snd := hh ▸ List.mem_map_of_mem Prod.snd he
        exact (List.nodup_cons.mp hnews).1 this
      cases List.mem_cons.mp hmem with
      | inl hh => exact henew hh
      | inr hh => exact hfresh e (List.mem_cons_of_mem _ he) (hsub _ hh)
    obtain ⟨dir'', hrun, hlen, hkeep⟩ := ih (new :: dir.filter (fun x => x ≠ old)) hnd₁
      (List.nodup_cons.mp hkeys).2 hkeymem₁ (List.nodup_cons.mp hnews).2 hfresh₁
    refine ⟨dir'', ?_, ?_, ?_⟩
    · show (match renameFile dir old new with
        | none => none
        | some dir' =>
          match rename_all_files dir' rest with
          | none => none
          | some (d, n) => some (d, n + 1)) = some (dir'', ((old, new) :: rest).length)
      rw [renameFile, if_pos hold, hgeq]
      simp only [hrun, List.length_cons]
    · rw [hlen, List.length_cons]
      exact length_filter_ne_of_nodup hnd hold
    · intro f hf hne
      have hfold : f ≠ old := (hne (old, new) (List.mem_cons_self _ _)).symm
      have hf₁ : f ∈ new :: dir.filter (fun x => x ≠ old) :=
        List.mem_cons_of_mem _ (List.mem_filter.mpr ⟨hf, by simp [hfold]⟩)
      exact hkeep f hf₁ (fun e he => hne e (List.mem_cons_of_mem _ he))

/-- Counterexample to claim C8 as stated: the one-entry plan a-to-b, whose
key a names an existing entry, applied to the directory holding a and b:
the single rename succeeds, but — fs::rename replacing an existing target —
the directory afterwards holds one entry instead of two, and the entry b,
not named by any plan key, was clobbered rather than left untouched. -/
theorem claim_C8_counterexample :
    rename_all_files ["a".toList, "b".toList] [("a".toList, "b".toList)] =
      some (["b".toList], 1) ∧
    (["b".toList] : List Str).length ≠ (["a".toList, "b".toList] : List Str).length := by
  exact ⟨rfl, by decide⟩

/-- Claim C8 (amended): applying a plan whose keys are distinct existing
directory entries and whose new names are pairwise distinct and name no
existing entry performs exactly one rename per plan entry (len(plan)
renames in total), leaves the number of directory entries unchanged, and
leaves every entry not named by a plan key in place.  The freshness
condition on new names is forced by the counterexample: fs::rename replaces
an existing target, shrinking the directory. -/
theorem claim_C8_apply_preserves_count
    (dir : List Str) (plan : Plan)
    (hnd : dir.Nodup)
    (hkeys : (plan.map Prod.fst).Nodup)
    (hkeysmem : ∀ e ∈ plan, e.1 ∈ dir)
    (hnews : (plan.map Prod.snd).Nodup)
    (hfresh : ∀ e ∈ plan, e.2 ∉ dir) :
    ∃ dir', rename_all_files dir plan = some (dir', plan.length) ∧
      dir'.length = dir.length ∧
      (∀ f ∈ dir, (∀ e ∈ plan, e.1 ≠ f) → f ∈ dir') :=
  rename_all_files_fresh plan dir hnd hkeys hkeysmem hnews hfresh

/-- Witness for claim C8: renaming a.1.jpg to 1_1.jpg in the directory
holding a.1.jpg and c performs one rename, keeps two entries, and keeps the
untouched entry c. -/
theorem claim_C8_witness :
    ∃ dir', rename_all_files ["a.1.jpg".toList, "c".toList]
        [("a.1.jpg".toList, "1_1.jpg".toList)] = some (dir', 1) ∧
      dir'.length = 2 ∧
      (∀ f ∈ (["a.1.jpg".toList, "c".toList] : List Str),
        (∀ e ∈ ([("a.1.jpg".toList, "1_1.jpg".toList)] : Plan), e.1 ≠ f) →
        f ∈ dir') := by
  exact claim_C8_apply_preserves_count ["a.1.jpg".toList, "c".toList]
    [("a.1.jpg".toList, "1_1.jpg".toList)]
    (by decide) (by decide) (by decide) (by decide) (by decide)

/-- Claim C9: with the rows fixed, two directory listings that are
permutations of each other give the same planning outcome — the same error,
or plans that are equal as maps, with identical lookups at every key.  The
computed plan is deterministic and independent of listing order. -/
theorem claim_C9_plan_independent_of_listing_order
    (rows : List Row) (files files' : List Str) (hperm : files.Perm files') :
    (∀ e, determine_renamings rows files = .error e ↔
      determine_renamings rows files' = .error e) ∧
    (∀ plan plan', determine_renamings rows files = .ok plan →
      determine_renamings rows files' = .ok plan' →
      ∀ k, planFind plan k = planFind plan' k) :=
  determineRenamingsAux_perm hperm (fun _ => rfl)

/-- Witness for claim C9: the row lot 1 / inventory A against the listings
A.1.jpg, A.2.jpg and A.2.jpg, A.1.jpg; the two runs build their plan
entries in opposite order, yet both look up A.1.jpg to 1_1.jpg. -/
theorem claim_C9_witness :
    planFind [("A.2.jpg".toList, "1_2.jpg".toList),
        ("A.1.jpg".toList, "1_1.jpg".toList)] "A.1.jpg".toList =
      planFind [("A.1.jpg".toList, "1_1.jpg".toList),
        ("A.2.jpg".toList, "1_2.jpg".toList)] "A.1.jpg".toList := by
  exact (claim_C9_plan_independent_of_listing_order
      [["1".toList, [], [], [], [], [], [], [], "A".toList]]
      ["A.1.jpg".toList, "A.2.jpg".toList] ["A.2.jpg".toList, "A.1.jpg".toList]
      (by decide)).2
    [("A.2.jpg".toList, "1_2.jpg".toList), ("A.1.jpg".toList, "1_1.jpg".toList)]
    [("A.1.jpg".toList, "1_1.jpg".toList), ("A.2.jpg".toList, "1_2.jpg".toList)]
    (by rfl) (by rfl) "A.1.jpg".toList

/-- Claim C10: a row whose field 8 is present but is the empty string
prefix-matches every listed file name.  Under a successful plan, every
listed file name therefore has a second period-delimited segment and an
entry in the plan, and — when no later row also matches it — that entry
maps it to the name composed from the row's lot number and its suffix. -/
theorem claim_C10_empty_inventory_matches_all
    (pre post : List Row) (row : Row) (files : List Str) (plan : Plan) (lot : Str)
    (h0 : row[0]? = some lot) (h8 : row[8]? = some ([] : Str))
    (hok : determine_renamings (pre ++ row :: post) files = .ok plan) :
    filter_object_files files [] = files ∧
    ∀ f ∈ files, ∃ s, extract_file_suffix f = some s ∧
      (planFind plan f).isSome ∧
      ((∀ row' ∈ post, ∀ inv', row'[8]? = some inv' → inv'.isPrefixOf f = false) →
        planFind plan f = some (compose_new_name lot s)) := by
  have hok' : determineRenamingsAux (pre ++ row :: post) files [] = .ok plan := hok
  rw [determineRenamingsAux_append] at hok'
  constructor
  · exact List.filter_eq_self.mpr (fun a _ => by cases a <;> rfl)
  · intro f hf
    cases hm : determineRenamingsAux pre files [] with
    | error e => rw [hm] at hok'; exact Except.noConfusion hok'
    | ok m =>
      rw [hm] at hok'
      simp only [determineRenamingsAux] at hok'
      cases hpr : processRow m row files with
      | error e => rw [hpr] at hok'; exact Except.noConfusion hok'
      | ok m₁ =>
        rw [hpr] at hok'
        obtain ⟨s, hs, hfind₁⟩ := (processRow_find h0 h8 hpr f).1 hf (by cases f <;> rfl)
        refine ⟨s, hs, ?_, ?_⟩
        · exact planFind_isSome_aux hok' (by rw [hfind₁]; rfl)
        · intro hpost
          rw [determineRenamingsAux_preserve hok' hpost, hfind₁]

/-- Witness for claim C10: the row with lot number 7 and empty inventory
number against the listing holding only a.5.jpg maps a.5.jpg to 7_5.jpg. -/
theorem claim_C10_witness :
    planFind [("a.5.jpg".toList, "7_5.jpg".toList)] "a.5.jpg".toList =
      some "7_5.jpg".toList := by
  obtain ⟨-, h2⟩ := claim_C10_empty_inventory_matches_all [] []
    ["7".toList, [], [], [], [], [], [], [], []]
    ["a.5.jpg".toList] [("a.5.jpg".toList, "7_5.jpg".toList)] "7".toList
    (by rfl) (by rfl) (by rfl)
  obtain ⟨s, hs, -, h4⟩ := h2 "a.5.jpg".toList (List.mem_singleton.mpr rfl)
  have hs5 : s = "5".toList := by
    have hrfl : extract_file_suffix "a.5.jpg".toList = some "5".toList := rfl
    rw [hrfl] at hs
    exact (Option.some.inj hs).symm
  subst hs5
  exact h4 (by intro r hr; exact absurd hr (List.not_mem_nil r))

end Rename
